import Mathlib

/-!
Verification development for the RLPx framing layer
(src/util/src/network/connection.rs).

The module is shallow-embedded: bytes are natural numbers (values below 256
where it matters), byte strings are lists, and the stateful Rust structures
become records threaded explicitly through the operations.  The external
cryptographic primitives (tiny_keccak's Keccak-256, rcrypto's AES-256 in CTR
and ECB mode, and the ECDH agreement) are abstracted as parameters of the
model, collected in the Crypto structure below: the framing layer uses
Keccak only through absorb/clone-finalize, CTR only as a position-indexed
keystream XORed onto the data, and ECB only as a keyed function on 16-byte
blocks, so every property of the framing code proved here is uniform in the
actual primitives.
-/

/-- Byte strings are lists of naturals. -/
abbrev Bytes := List Nat

/-- Pointwise XOR of two byte strings, truncating to the shorter one, as the
H128 and H256 XOR operators in the source do on equal-length arrays. -/
def zipXor (a b : Bytes) : Bytes := List.zipWith Nat.xor a b

/-- Abstract cryptographic primitives used by the connection module.
keccakFinal models finalizing (a clone of) a Keccak-256 state that has
absorbed the given bytes, producing the 32-byte digest; aesEcb models a
single-block AES-256-ECB encryption under a 32-byte key; keystream models
the AES-256-CTR keystream byte at a given position for a given key with the
all-zero IV; ecdhAgree models crypto::ecdh::agree. -/
structure Crypto where
  keccakFinal : Bytes → Bytes
  aesEcb : Bytes → Bytes → Bytes
  keystream : Bytes → Nat → Nat
  ecdhAgree : Bytes → Bytes → Bytes

/-- Well-formedness of the primitives: digests are 32 bytes and ECB blocks
are 16 bytes, as the H256 / H128 output buffers in the source enforce. -/
structure CryptoWF (c : Crypto) : Prop where
  keccak_len : ∀ xs, (c.keccakFinal xs).length = 32
  aesEcb_len : ∀ k xs, (c.aesEcb k xs).length = 16

/-- AES-256-CTR en/decryption of a byte string starting at the given
keystream position: each byte is XORed with the keystream byte at its
position.  Encryption and decryption coincide (CtrMode uses the same
operation for both). -/
def ctrCrypt (c : Crypto) (key : Bytes) : Nat → Bytes → Bytes
  | _, [] => []
  | pos, b :: rest => (b ^^^ c.keystream key pos) :: ctrCrypt c key (pos + 1) rest

/-- A partially-written outbound block: Cursor of Bytes in the source, the
position marking how many bytes have already been written to the socket. -/
structure Cursor where
  pos : Nat
  data : Bytes
deriving DecidableEq

/-- Low level tcp connection (the byte pipe).  The socket itself and the
event-loop token are not modelled; reads and writes are parametrized by the
bytes the socket yields or accepts.  The interest mask always contains
hang-up; only its writable bit is tracked here (the readable bit is touched
only by register). -/
structure Connection where
  rec_buf : Bytes
  rec_size : Nat
  send_queue : List Cursor
  interest_writable : Bool
deriving DecidableEq

/-- Connection write status. -/
inductive WriteStatus where
  | Ongoing
  | Complete
deriving DecidableEq

/-- A fresh connection: empty buffer, no expected size, empty queue,
interest is EventSet::hup() which has no writable bit. -/
def Connection.new : Connection :=
  { rec_buf := [], rec_size := 0, send_queue := [], interest_writable := false }

/-- Put a connection into read mode, receiving up to size bytes of data:
clears the receive buffer and records the expected size. -/
def Connection.expect (conn : Connection) (size : Nat) : Connection :=
  { conn with rec_buf := [], rec_size := size }

/-- Readable IO handler.  input is the byte sequence currently available on
the socket; the read takes at most rec_size - rec_buf.length of it.  When
the buffer reaches the expected size the full buffer is returned and the
connection is reset (rec_size 0, buffer replaced by a fresh empty one);
otherwise none is returned. -/
def Connection.readable (conn : Connection) (input : Bytes) : Connection × Option Bytes :=
  let maxRead := conn.rec_size - conn.rec_buf.length
  let buf := conn.rec_buf ++ input.take maxRead
  if buf.length = conn.rec_size then
    ({ conn with rec_buf := [], rec_size := 0 }, some buf)
  else
    ({ conn with rec_buf := buf }, none)

/-- Add a packet to the send queue.  Only a non-empty block is enqueued, but
writable interest is inserted unconditionally. -/
def Connection.send (conn : Connection) (data : Bytes) : Connection :=
  { conn with
    send_queue := if data.isEmpty then conn.send_queue else conn.send_queue ++ [⟨0, data⟩],
    interest_writable := true }

/-- Writable IO handler, parametrized by the number of bytes the socket
accepts in this call (the front cursor advances by at most that many).  An
empty queue returns Complete at once; a front cursor already at or past the
end of its block hits the warn-and-return path, also leaving the state
unchanged.  Otherwise the cursor advances; a fully drained front block is
popped and writable interest is set exactly when the queue remains
non-empty, while a partial write keeps the block and inserts writable
interest. -/
def Connection.writable (conn : Connection) (accepted : Nat) : Connection × WriteStatus :=
  match conn.send_queue with
  | [] => (conn, WriteStatus.Complete)
  | cur :: rest =>
    let sendSize := cur.data.length
    if cur.pos ≥ sendSize then
      (conn, WriteStatus.Complete)
    else
      let newPos := cur.pos + min accepted (sendSize - cur.pos)
      if newPos < sendSize then
        ({ conn with send_queue := ⟨newPos, cur.data⟩ :: rest, interest_writable := true },
          WriteStatus.Ongoing)
      else
        ({ conn with send_queue := rest, interest_writable := !rest.isEmpty },
          WriteStatus.Complete)

/-- RLPx packet. -/
structure Packet where
  protocol : Nat
  data : Bytes
deriving DecidableEq

/-- Encrypted connection receiving state. -/
inductive EncryptedConnectionState where
  | Header
  | Payload
deriving DecidableEq

/-- Errors surfaced by the framing layer: NetworkError::Auth for
authentication failures, and the rlp decoder error wrapped into UtilError
by the try! in read_header (any non-Auth UtilError variant; only its
distinctness from Auth matters here). -/
inductive UtilError where
  | Auth
  | BadRlp
deriving DecidableEq

def ENCRYPTED_HEADER_LEN : Nat := 32

/-- Connection implementing RLPx framing.  The two CtrMode cipher states
are represented by their key together with the number of keystream bytes
already consumed (the all-zero IV is implicit in Crypto.keystream); the two
Keccak MAC states are represented by the full byte sequence absorbed so
far; the shared ECB mac_encoder is represented by its key (it is reset
after every single-block use, so it carries no other state). -/
structure EncryptedConnection where
  connection : Connection
  encoderKey : Bytes
  encoderPos : Nat
  decoderKey : Bytes
  decoderPos : Nat
  macKey : Bytes
  egress_mac : Bytes
  ingress_mac : Bytes
  read_state : EncryptedConnectionState
  protocol_id : Nat
  payload_len : Nat

/-- Update MAC after reading or writing any data: finalize a clone of the
Keccak state into a 16-byte prev, ECB-encrypt it, XOR with the seed if
non-empty or with prev itself otherwise, and absorb the result. -/
def EncryptedConnection.update_mac (c : Crypto) (macKey : Bytes) (mac : Bytes)
    (seed : Bytes) : Bytes :=
  let prev := (c.keccakFinal mac).take 16
  let enc := c.aesEcb macKey prev
  mac ++ zipXor enc (if seed.isEmpty then prev else seed)

/-- The 16-byte MAC tag of a Keccak MAC state: finalize a clone of the
state, keeping the live state untouched.  Returned together with the state
the engine continues from, to make the absence of mutation explicit. -/
def snapshot16 (c : Crypto) (mac : Bytes) : Bytes × Bytes :=
  ((c.keccakFinal mac).take 16, mac)

/-- The handshake record consumed by EncryptedConnection::new.  The
ephemeral key pair is kept abstract; crypto::ecdh::agree is applied to
ecdheSecret and remotePublic. -/
structure Handshake where
  ecdheSecret : Bytes
  remotePublic : Bytes
  nonce : Bytes
  remoteNonce : Bytes
  authCipher : Bytes
  ackCipher : Bytes
  originated : Bool
  connection : Connection

/-- The 64-byte nonce material assembled in EncryptedConnection::new:
remote_nonce then nonce for the originator, nonce then remote_nonce
otherwise. -/
def nonceMaterial (h : Handshake) : Bytes :=
  if h.originated then h.remoteNonce ++ h.nonce else h.nonce ++ h.remoteNonce

/-- Create an encrypted connection out of the handshake, mirroring
EncryptedConnection::new: derive the shared secret, build key_material as
shared || Keccak256(nonce_material), replace its upper half twice by the
hash of the whole buffer (the value then in the upper half keys both CTR
cipher states), replace it a third time (the value then in the upper half
keys the ECB mac encoder), and seed the egress and ingress MACs with the
MAC key XOR the respective nonce followed by the handshake cipher bytes
this side, respectively the remote side, sent. -/
def EncryptedConnection.new (c : Crypto) (h : Handshake) : EncryptedConnection :=
  let shared := c.ecdhAgree h.ecdheSecret h.remotePublic
  let key_material1 := shared ++ c.keccakFinal (nonceMaterial h)
  let key_material2 := key_material1.take 32 ++ c.keccakFinal key_material1
  let key_material3 := key_material2.take 32 ++ c.keccakFinal key_material2
  let aesKey := key_material3.drop 32
  let key_material4 := key_material3.take 32 ++ c.keccakFinal key_material3
  let macKey := key_material4.drop 32
  { connection := h.connection
    encoderKey := aesKey
    encoderPos := 0
    decoderKey := aesKey
    decoderPos := 0
    macKey := macKey
    egress_mac := zipXor macKey h.remoteNonce ++
      (if h.originated then h.authCipher else h.ackCipher)
    ingress_mac := zipXor macKey h.nonce ++
      (if h.originated then h.ackCipher else h.authCipher)
    read_state := EncryptedConnectionState.Header
    protocol_id := 0
    payload_len := 0 }

/-- The 16-byte header plaintext built by send_packet: 3-byte big-endian
payload length, the fixed RLP bytes 0xc2 0x80 0x80, zero-resized to 16. -/
def headerPlain (len : Nat) : Bytes :=
  [len / 65536 % 256, len / 256 % 256, len % 256, 0xc2, 0x80, 0x80] ++ List.replicate 10 0

/-- Send a packet, mirroring EncryptedConnection::send_packet: encrypt the
16-byte header plaintext, mix the header ciphertext into the egress MAC and
append its tag, encrypt the payload then the zero padding continuing the
same keystream, absorb that ciphertext directly into the egress MAC, mix
the empty seed and append the final tag, and enqueue the whole frame on the
connection.  The enqueued frame is returned alongside the new state. -/
def EncryptedConnection.send_packet (c : Crypto) (e : EncryptedConnection)
    (payload : Bytes) : EncryptedConnection × Bytes :=
  let len := payload.length
  let padding := (16 - len % 16) % 16
  let ctHeader := ctrCrypt c e.encoderKey e.encoderPos (headerPlain len)
  let egress1 := EncryptedConnection.update_mac c e.macKey e.egress_mac ctHeader
  let mac1 := (c.keccakFinal egress1).take 16
  let ctPayload := ctrCrypt c e.encoderKey (e.encoderPos + 16) payload
  let ctPad := ctrCrypt c e.encoderKey (e.encoderPos + 16 + len) (List.replicate padding 0)
  let egress2 := egress1 ++ (ctPayload ++ ctPad)
  let egress3 := EncryptedConnection.update_mac c e.macKey egress2 []
  let mac2 := (c.keccakFinal egress3).take 16
  let packet := ctHeader ++ mac1 ++ ctPayload ++ ctPad ++ mac2
  ({ e with
      egress_mac := egress3
      encoderPos := e.encoderPos + 16 + len + padding
      connection := e.connection.send packet },
    packet)

/-- The big-endian value of a byte string, used for the 24-bit length field
decode length = ((hdec[0] << 8) + hdec[1]) << 8) + hdec[2]. -/
def beVal : Bytes → Nat
  | [] => 0
  | b :: rest => b * 256 ^ rest.length + beVal rest

/-- Modelled from the spec: the rlp crate backing UntrustedRlp::val_at is
not under src/.  Decodes item 0 of the RLP fragment as an unsigned 16-bit
integer: the fragment must be a non-empty RLP list (prefix 0xc0-0xf7); its
first item is either a single byte below 0x80 (its own value), the empty
string 0x80 (value 0), or a short string of at most two bytes holding the
big-endian value.  Anything else is a decoder error, which the source
wraps into a non-Auth UtilError. -/
def rlpValAt0U16 (bytes : Bytes) : Except UtilError Nat :=
  match bytes with
  | [] => Except.error UtilError.BadRlp
  | b0 :: rest =>
    if 0xc0 ≤ b0 ∧ b0 ≤ 0xf7 ∧ b0 ≠ 0xc0 then
      match rest with
      | [] => Except.error UtilError.BadRlp
      | i0 :: irest =>
        if i0 < 0x80 then Except.ok i0
        else if i0 = 0x80 then Except.ok 0
        else if i0 ≤ 0x82 ∧ i0 - 0x80 ≤ irest.length then
          Except.ok (beVal (irest.take (i0 - 0x80)))
        else Except.error UtilError.BadRlp
    else Except.error UtilError.BadRlp

/-- Decrypt and authenticate an incoming packet header and prepare for
receiving the payload, mirroring EncryptedConnection::read_header: reject a
non-32-byte input with Auth; mix the first 16 ciphertext bytes into the
ingress MAC and compare its tag against bytes 16..32, rejecting a mismatch
with Auth; CTR-decrypt the 16 ciphertext bytes; decode the 24-bit
big-endian length and the RLP protocol id; record them, switch the read
state to Payload and expect length + padding + 16 bytes. -/
def EncryptedConnection.read_header (c : Crypto) (e : EncryptedConnection)
    (header : Bytes) : Except UtilError EncryptedConnection :=
  if header.length ≠ ENCRYPTED_HEADER_LEN then Except.error UtilError.Auth
  else
    let ingress1 := EncryptedConnection.update_mac c e.macKey e.ingress_mac (header.take 16)
    let expected := c.keccakFinal ingress1
    if header.drop 16 ≠ expected.take 16 then Except.error UtilError.Auth
    else
      let hdec := ctrCrypt c e.decoderKey e.decoderPos (header.take 16)
      let length := (hdec.getD 0 0 * 256 + hdec.getD 1 0) * 256 + hdec.getD 2 0
      match rlpValAt0U16 ((hdec.drop 3).take 3) with
      | Except.error err => Except.error err
      | Except.ok protocol_id =>
        let padding := (16 - length % 16) % 16
        let full_length := length + padding + 16
        Except.ok { e with
          ingress_mac := ingress1
          decoderPos := e.decoderPos + 16
          payload_len := length
          protocol_id := protocol_id
          read_state := EncryptedConnectionState.Payload
          connection := e.connection.expect full_length }

/-- Decrypt and authenticate a packet payload, mirroring
EncryptedConnection::read_payload: reject an input whose length is not
payload_len + padding + 16 with Auth; absorb everything but the trailing 16
bytes directly into the ingress MAC, mix the empty seed, and compare the
tag against the trailing 16 bytes, rejecting a mismatch with Auth;
CTR-decrypt the first payload_len bytes into the packet data, and decrypt
the padding bytes as well (discarded into pad_buf by the source, advancing
the ingress keystream by payload_len + padding in total). -/
def EncryptedConnection.read_payload (c : Crypto) (e : EncryptedConnection)
    (payload : Bytes) : Except UtilError (EncryptedConnection × Packet) :=
  let padding := (16 - e.payload_len % 16) % 16
  let full_length := e.payload_len + padding + 16
  if payload.length ≠ full_length then Except.error UtilError.Auth
  else
    let ingress1 := e.ingress_mac ++ payload.take (payload.length - 16)
    let ingress2 := EncryptedConnection.update_mac c e.macKey ingress1 []
    let expected := (c.keccakFinal ingress2).take 16
    if payload.drop (payload.length - 16) ≠ expected then Except.error UtilError.Auth
    else
      let packet := ctrCrypt c e.decoderKey e.decoderPos (payload.take e.payload_len)
      Except.ok
        ({ e with
            ingress_mac := ingress2
            decoderPos := e.decoderPos + e.payload_len + padding },
          { protocol := e.protocol_id, data := packet })

/-- Readable IO handler, mirroring EncryptedConnection::readable (the idle
timeout handling is outside the model): in Header state a full buffer from
the pipe goes through read_header and no packet is emitted; in Payload
state the read state is switched back to Header and the pipe set to expect
the 32-byte header before read_payload runs on the full buffer, whose
packet is emitted.  input is the byte sequence available on the socket. -/
def EncryptedConnection.readable (c : Crypto) (e : EncryptedConnection)
    (input : Bytes) : Except UtilError (EncryptedConnection × Option Packet) :=
  match e.read_state with
  | EncryptedConnectionState.Header =>
    match e.connection.readable input with
    | (conn, none) => Except.ok ({ e with connection := conn }, none)
    | (conn, some data) =>
      match EncryptedConnection.read_header c { e with connection := conn } data with
      | Except.error err => Except.error err
      | Except.ok e1 => Except.ok (e1, none)
  | EncryptedConnectionState.Payload =>
    match e.connection.readable input with
    | (conn, none) => Except.ok ({ e with connection := conn }, none)
    | (conn, some data) =>
      let e1 := { e with
        connection := conn.expect ENCRYPTED_HEADER_LEN
        read_state := EncryptedConnectionState.Header }
      match EncryptedConnection.read_payload c e1 data with
      | Except.error err => Except.error err
      | Except.ok (e2, packet) => Except.ok (e2, some packet)

/-- A concrete instantiation of the abstract primitives, used to exhibit
counterexamples and to instantiate the universally quantified theorems at
concrete inputs.  The functions are not the real Keccak / AES, but they
satisfy CryptoWF and distinguish iterated hashing. -/
def testCrypto : Crypto where
  keccakFinal := fun xs => (xs.sum + 1) % 256 :: List.replicate 31 0
  aesEcb := fun k xs => List.replicate 16 ((k.sum + xs.sum) % 256)
  keystream := fun k i => (k.sum + i) % 256
  ecdhAgree := fun s p => List.replicate 32 ((s.sum + p.sum) % 256)

/-- A concrete originator-side handshake record. -/
def testHandshakeA : Handshake where
  ecdheSecret := List.replicate 32 0
  remotePublic := List.replicate 64 0
  nonce := List.replicate 32 0
  remoteNonce := List.replicate 32 0
  authCipher := [7]
  ackCipher := [9]
  originated := true
  connection := Connection.new

/-- The matching responder-side handshake record. -/
def testHandshakeB : Handshake :=
  { testHandshakeA with originated := false }

/-- The send-queue/interest invariant claimed by the spec: the writable bit
of the interest mask is set exactly when the send queue is non-empty. -/
def interestInv (conn : Connection) : Prop :=
  conn.interest_writable = !conn.send_queue.isEmpty

instance (conn : Connection) : Decidable (interestInv conn) := by
  unfold interestInv
  infer_instance

/-- Iterating the state component of snapshot16 some number of times,
modelling a run of consecutive snapshot calls. -/
def snapshotIter (c : Crypto) : Nat → Bytes → Bytes
  | 0, K => K
  | n + 1, K => snapshotIter c n (snapshot16 c K).2

/-- Following the spec's words, key derivation steps 1 and 2: key_material
holds the shared secret in its lower half and Keccak256 of the nonce
material in its upper half. -/
def specKeyMaterial (c : Crypto) (h : Handshake) : Bytes :=
  c.ecdhAgree h.ecdheSecret h.remotePublic ++ c.keccakFinal (nonceMaterial h)

/-- Following the spec's words, one replacement step of the key schedule:
replace bytes 32..64 of key_material with Keccak256 of the whole buffer. -/
def specReplaceUpper (c : Crypto) (km : Bytes) : Bytes :=
  km.take 32 ++ c.keccakFinal km

/-- Zero padding bringing a payload to a 16-byte multiple. -/
def framePad (p : Bytes) : Nat := (16 - p.length % 16) % 16

/-- The header ciphertext of the frame send_packet builds from state e. -/
def frameCtHeader (c : Crypto) (e : EncryptedConnection) (p : Bytes) : Bytes :=
  ctrCrypt c e.encoderKey e.encoderPos (headerPlain p.length)

/-- The egress MAC state after mixing the header ciphertext. -/
def frameEgress1 (c : Crypto) (e : EncryptedConnection) (p : Bytes) : Bytes :=
  EncryptedConnection.update_mac c e.macKey e.egress_mac (frameCtHeader c e p)

/-- The header MAC tag of the frame. -/
def frameMac1 (c : Crypto) (e : EncryptedConnection) (p : Bytes) : Bytes :=
  (c.keccakFinal (frameEgress1 c e p)).take 16

/-- The payload ciphertext of the frame. -/
def frameCtPayload (c : Crypto) (e : EncryptedConnection) (p : Bytes) : Bytes :=
  ctrCrypt c e.encoderKey (e.encoderPos + 16) p

/-- The encrypted zero padding of the frame. -/
def frameCtPad (c : Crypto) (e : EncryptedConnection) (p : Bytes) : Bytes :=
  ctrCrypt c e.encoderKey (e.encoderPos + 16 + p.length) (List.replicate (framePad p) 0)

/-- The egress MAC state after absorbing the body ciphertext and mixing the
empty seed. -/
def frameEgress3 (c : Crypto) (e : EncryptedConnection) (p : Bytes) : Bytes :=
  EncryptedConnection.update_mac c e.macKey
    (frameEgress1 c e p ++ (frameCtPayload c e p ++ frameCtPad c e p)) []

/-- The payload MAC tag of the frame. -/
def frameMac2 (c : Crypto) (e : EncryptedConnection) (p : Bytes) : Bytes :=
  (c.keccakFinal (frameEgress3 c e p)).take 16

/-- Two channels are matched when the sender's egress half agrees with the
receiver's ingress half: same MAC key, the sender's egress CTR key and
position equal the receiver's ingress (decoder) ones, and the sender's
egress MAC state equals the receiver's ingress MAC state. -/
def matched (eA eB : EncryptedConnection) : Prop :=
  eA.macKey = eB.macKey ∧
  eA.encoderKey = eB.decoderKey ∧
  eA.encoderPos = eB.decoderPos ∧
  eA.egress_mac = eB.ingress_mac

/-- Two handshake records describe the two ends of one handshake: one side
originated, the ECDH agreement yields the same shared secret on both sides,
each side's nonce is the other's remote nonce, and both hold the same auth
and ack cipher bytes. -/
def matchingHandshakes (c : Crypto) (hA hB : Handshake) : Prop :=
  hA.originated = true ∧ hB.originated = false ∧
  c.ecdhAgree hA.ecdheSecret hA.remotePublic = c.ecdhAgree hB.ecdheSecret hB.remotePublic ∧
  hB.nonce = hA.remoteNonce ∧ hB.remoteNonce = hA.nonce ∧
  hB.authCipher = hA.authCipher ∧ hB.ackCipher = hA.ackCipher

/-- Receive one frame: the first 32 bytes go through read_header, the rest
through read_payload, as the readable handler does over the byte pipe. -/
def recvFrame (c : Crypto) (e : EncryptedConnection) (frame : Bytes) :
    Except UtilError (EncryptedConnection × Packet) :=
  match EncryptedConnection.read_header c e (frame.take 32) with
  | Except.error err => Except.error err
  | Except.ok e1 => EncryptedConnection.read_payload c e1 (frame.drop 32)

/-- Send a list of payloads in order, collecting the produced frames. -/
def sendAll (c : Crypto) : EncryptedConnection → List Bytes →
    EncryptedConnection × List Bytes
  | e, [] => (e, [])
  | e, p :: ps =>
    let r := EncryptedConnection.send_packet c e p
    let rest := sendAll c r.1 ps
    (rest.1, r.2 :: rest.2)

/-- Receive a list of frames in order, collecting the decoded packets. -/
def recvAll (c : Crypto) : EncryptedConnection → List Bytes →
    Except UtilError (EncryptedConnection × List Packet)
  | e, [] => Except.ok (e, [])
  | e, f :: fs =>
    match recvFrame c e f with
    | Except.error err => Except.error err
    | Except.ok (e1, p) =>
      match recvAll c e1 fs with
      | Except.error err => Except.error err
      | Except.ok (e2, ps) => Except.ok (e2, p :: ps)

@[simp] theorem ctrCrypt_nil (c : Crypto) (key : Bytes) (pos : Nat) :
    ctrCrypt c key pos [] = [] := rfl

@[simp] theorem ctrCrypt_cons (c : Crypto) (key : Bytes) (pos b : Nat) (rest : Bytes) :
    ctrCrypt c key pos (b :: rest) =
      (b ^^^ c.keystream key pos) :: ctrCrypt c key (pos + 1) rest := rfl

@[simp] theorem length_ctrCrypt (c : Crypto) (key : Bytes) :
    ∀ (pos : Nat) (xs : Bytes), (ctrCrypt c key pos xs).length = xs.length := by
  intro pos xs
  induction xs generalizing pos with
  | nil => rfl
  | cons b rest ih => simp [ctrCrypt, ih]

theorem ctrCrypt_append (c : Crypto) (key : Bytes) :
    ∀ (pos : Nat) (xs ys : Bytes),
      ctrCrypt c key pos (xs ++ ys) =
        ctrCrypt c key pos xs ++ ctrCrypt c key (pos + xs.length) ys := by
  intro pos xs ys
  induction xs generalizing pos with
  | nil => simp
  | cons b rest ih =>
      simp only [List.cons_append, ctrCrypt_cons, ih, List.length_cons]
      have : pos + 1 + rest.length = pos + (rest.length + 1) := by omega
      rw [this]

theorem ctrCrypt_ctrCrypt (c : Crypto) (key : Bytes) :
    ∀ (pos : Nat) (xs : Bytes), ctrCrypt c key pos (ctrCrypt c key pos xs) = xs := by
  intro pos xs
  induction xs generalizing pos with
  | nil => rfl
  | cons b rest ih =>
      simp only [ctrCrypt_cons, ih]
      rw [Nat.xor_assoc, Nat.xor_self, Nat.xor_zero]

@[simp] theorem length_headerPlain (len : Nat) : (headerPlain len).length = 16 := by
  simp [headerPlain]

/-- The concrete primitives are well-formed. -/
theorem testCrypto_wf : CryptoWF testCrypto where
  keccak_len := fun xs => by simp [testCrypto]
  aesEcb_len := fun k xs => by simp [testCrypto]

/-- C10: calling the byte pipe's writable with an empty send queue returns
Complete without touching the connection state, whatever the socket would
have accepted. -/
theorem writable_empty_queue_noop (conn : Connection) (accepted : Nat)
    (h : conn.send_queue = []) :
    conn.writable accepted = (conn, WriteStatus.Complete) := by
  unfold Connection.writable
  rw [h]

/-- Witness for writable_empty_queue_noop at a fresh connection. -/
theorem writable_empty_queue_noop_witness :
    Connection.new.writable 7 = (Connection.new, WriteStatus.Complete) :=
  writable_empty_queue_noop Connection.new 7 rfl

/-- C9 counterexample: send of an empty block sets writable interest even
though nothing is enqueued, so after that send the interest mask includes
writable while the send queue is empty, falsifying the claimed equivalence. -/
theorem send_empty_sets_writable :
    (Connection.new.send []).interest_writable = true ∧
      (Connection.new.send []).send_queue = [] :=
  ⟨rfl, rfl⟩

/-- C9 amended: every writable call preserves the invariant that writable
interest is set iff the send queue is non-empty, and send establishes it
whenever the block is non-empty; send always sets writable interest, so a
send of an empty block sets it without enqueuing anything. -/
theorem interest_writable_invariant :
    (∀ (conn : Connection) (accepted : Nat),
      interestInv conn → interestInv (conn.writable accepted).1) ∧
    (∀ (conn : Connection) (data : Bytes),
      data ≠ [] → interestInv (conn.send data)) ∧
    (∀ (conn : Connection) (data : Bytes),
      (conn.send data).interest_writable = true) := by
  refine ⟨?_, ?_, ?_⟩
  · intro conn accepted hinv
    unfold Connection.writable
    match hq : conn.send_queue with
    | [] => exact hinv
    | cur :: rest =>
      by_cases hpos : cur.pos ≥ cur.data.length
      · simp only [hpos, if_true]
        exact hinv
      · simp only [hpos, if_false]
        by_cases hlt : cur.pos + min accepted (cur.data.length - cur.pos) < cur.data.length
        · simp only [hlt, if_true, interestInv, List.isEmpty_cons, Bool.not_false]
        · simp only [hlt, if_false, interestInv]
  · intro conn data hdata
    unfold interestInv Connection.send
    have : data.isEmpty = false := by
      cases data with
      | nil => exact absurd rfl hdata
      | cons a l => rfl
    simp [this]
  · intro conn data
    rfl

/-- Witness for interest_writable_invariant: instantiated at a fresh
connection after a one-byte send and a partial write. -/
theorem interest_writable_invariant_witness :
    interestInv ((Connection.new.send [1, 2]).writable 1).1 ∧
      interestInv (Connection.new.send [3]) :=
  ⟨interest_writable_invariant.1 (Connection.new.send [1, 2]) 1
      (interest_writable_invariant.2.1 Connection.new [1, 2] (by decide)),
    interest_writable_invariant.2.1 Connection.new [3] (by decide)⟩

/-- C8: during a receive cycle (a positive expected size, buffer not past
it) a readable call reads at most expected-minus-buffered bytes from the
socket, returns the full buffer and resets the expected size to 0 exactly
when the buffer reaches the expected size, returns none otherwise, and the
buffer length never exceeds the expected size afterwards. -/
theorem connection_readable_cycle (conn : Connection) (input : Bytes)
    (hpos : 0 < conn.rec_size) (hinv : conn.rec_buf.length ≤ conn.rec_size) :
    (input.take (conn.rec_size - conn.rec_buf.length)).length ≤
        conn.rec_size - conn.rec_buf.length ∧
    conn.readable input =
      (if conn.rec_buf.length + (input.take (conn.rec_size - conn.rec_buf.length)).length
          = conn.rec_size
        then ({ conn with rec_buf := [], rec_size := 0 },
          some (conn.rec_buf ++ input.take (conn.rec_size - conn.rec_buf.length)))
        else ({ conn with
            rec_buf := conn.rec_buf ++ input.take (conn.rec_size - conn.rec_buf.length) },
          none)) ∧
    (conn.readable input).1.rec_buf.length ≤ (conn.readable input).1.rec_size := by
  have htake : (input.take (conn.rec_size - conn.rec_buf.length)).length ≤
      conn.rec_size - conn.rec_buf.length := by
    simp [List.length_take]
  have heq : conn.readable input =
      (if conn.rec_buf.length + (input.take (conn.rec_size - conn.rec_buf.length)).length
          = conn.rec_size
        then ({ conn with rec_buf := [], rec_size := 0 },
          some (conn.rec_buf ++ input.take (conn.rec_size - conn.rec_buf.length)))
        else ({ conn with
            rec_buf := conn.rec_buf ++ input.take (conn.rec_size - conn.rec_buf.length) },
          none)) := by
    unfold Connection.readable
    simp only [List.length_append]
  refine ⟨htake, heq, ?_⟩
  rw [heq]
  by_cases hfull :
      conn.rec_buf.length + (input.take (conn.rec_size - conn.rec_buf.length)).length
        = conn.rec_size
  · rw [if_pos hfull]
    exact Nat.le_refl 0
  · rw [if_neg hfull]
    simp only [List.length_append]
    omega

/-- Witness for connection_readable_cycle: a cycle expecting 4 bytes with 1
byte buffered, offered 2 bytes by the socket. -/
theorem connection_readable_cycle_witness :
    (([9].take (4 - 1)).length ≤ 4 - 1 ∧
      Connection.readable ⟨[5], 4, [], false⟩ [9] =
        (if (1 : Nat) + ([9].take (4 - 1)).length = 4
          then (⟨[], 0, [], false⟩, some ([5] ++ [9].take (4 - 1)))
          else (⟨[5] ++ [9].take (4 - 1), 4, [], false⟩, none)) ∧
      (Connection.readable ⟨[5], 4, [], false⟩ [9]).1.rec_buf.length ≤
        (Connection.readable ⟨[5], 4, [], false⟩ [9]).1.rec_size) :=
  connection_readable_cycle ⟨[5], 4, [], false⟩ [9] (by decide) (by decide)

/-- C3: for every MAC engine state K and every seed of length 0 or 16, the
mix operation absorbs exactly one 16-byte block, namely the ECB encryption
of the current tag XORed with the seed when the seed is non-empty and with
the tag itself when the seed is empty. -/
theorem update_mac_mixes_16_byte_block (c : Crypto) (hwf : CryptoWF c)
    (key K seed : Bytes) (hseed : seed.length = 0 ∨ seed.length = 16) :
    EncryptedConnection.update_mac c key K seed =
      K ++ zipXor (c.aesEcb key ((c.keccakFinal K).take 16))
        (if seed.length = 0 then (c.keccakFinal K).take 16 else seed) ∧
    (zipXor (c.aesEcb key ((c.keccakFinal K).take 16))
        (if seed.length = 0 then (c.keccakFinal K).take 16 else seed)).length = 16 := by
  have hprev : ((c.keccakFinal K).take 16).length = 16 := by
    simp [List.length_take, hwf.keccak_len K]
  have henc : (c.aesEcb key ((c.keccakFinal K).take 16)).length = 16 :=
    hwf.aesEcb_len key ((c.keccakFinal K).take 16)
  rcases hseed with h0 | h16
  · have hnil : seed = [] := List.length_eq_zero.mp h0
    subst hnil
    refine ⟨rfl, ?_⟩
    simp [zipXor, List.length_zipWith, hprev, henc]
  · have hne : seed.isEmpty = false := by
      cases seed with
      | nil => simp at h16
      | cons a l => rfl
    have hiflen : seed.length = 0 ↔ False := by
      constructor
      · intro h
        rw [h16] at h
        exact absurd h (by decide)
      · intro h
        exact absurd h (by simp)
    constructor
    · unfold EncryptedConnection.update_mac
      simp [hne, hiflen]
    · simp [hiflen, zipXor, List.length_zipWith, henc, h16]

/-- Witness for update_mac_mixes_16_byte_block at the concrete primitives,
an empty MAC state and a 16-byte seed. -/
theorem update_mac_mixes_16_byte_block_witness :
    EncryptedConnection.update_mac testCrypto [1] [2] (List.replicate 16 3) =
      [2] ++ zipXor (testCrypto.aesEcb [1] ((testCrypto.keccakFinal [2]).take 16))
        (if (List.replicate 16 3 : Bytes).length = 0
          then (testCrypto.keccakFinal [2]).take 16 else List.replicate 16 3) ∧
    (zipXor (testCrypto.aesEcb [1] ((testCrypto.keccakFinal [2]).take 16))
        (if (List.replicate 16 3 : Bytes).length = 0
          then (testCrypto.keccakFinal [2]).take 16 else List.replicate 16 3)).length = 16 :=
  update_mac_mixes_16_byte_block testCrypto testCrypto_wf [1] [2]
    (List.replicate 16 3) (Or.inr (by decide))

/-- C7: snapshot16 never mutates the Keccak state: its state component is
the input state, consecutive snapshots return the same 16 bytes, and the
tag obtained by a mix followed by a snapshot is unchanged by any number of
interposed snapshot calls. -/
theorem snapshot16_does_not_mutate (c : Crypto) (K : Bytes) :
    (snapshot16 c K).2 = K ∧
    (snapshot16 c (snapshot16 c K).2).1 = (snapshot16 c K).1 ∧
    (∀ (n : Nat) (key seed : Bytes),
      (snapshot16 c
        (EncryptedConnection.update_mac c key (snapshotIter c n K) seed)).1 =
      (snapshot16 c (EncryptedConnection.update_mac c key K seed)).1) := by
  have hiter : ∀ (n : Nat) (L : Bytes), snapshotIter c n L = L := by
    intro n
    induction n with
    | zero => intro L; rfl
    | succ m ih => intro L; exact ih L
  exact ⟨rfl, rfl, fun n key seed => by rw [hiter n K]⟩

/-- C4: send_packet enqueues exactly one block on the pipe, of size
32 + L + pad + 16 with pad the zero padding to a 16-byte multiple; for the
empty payload the frame is exactly 48 bytes. -/
theorem send_packet_frame_size (c : Crypto) (hwf : CryptoWF c)
    (e : EncryptedConnection) (payload : Bytes)
    (hlen : payload.length < 2 ^ 24) :
    (EncryptedConnection.send_packet c e payload).2.length =
      32 + payload.length + (16 - payload.length % 16) % 16 + 16 ∧
    (EncryptedConnection.send_packet c e payload).1.connection.send_queue =
      e.connection.send_queue ++ [⟨0, (EncryptedConnection.send_packet c e payload).2⟩] ∧
    (payload = [] → (EncryptedConnection.send_packet c e payload).2.length = 48) := by
  have hmac : ∀ xs, ((c.keccakFinal xs).take 16).length = 16 := by
    intro xs
    simp [List.length_take, hwf.keccak_len xs]
  have hframe : (EncryptedConnection.send_packet c e payload).2.length =
      32 + payload.length + (16 - payload.length % 16) % 16 + 16 := by
    unfold EncryptedConnection.send_packet
    simp only [List.length_append, length_ctrCrypt, length_headerPlain, hmac,
      List.length_replicate]
  refine ⟨hframe, ?_, ?_⟩
  · have hne : (EncryptedConnection.send_packet c e payload).2.isEmpty = false := by
      have : (EncryptedConnection.send_packet c e payload).2.length ≠ 0 := by
        rw [hframe]; omega
      cases hp : (EncryptedConnection.send_packet c e payload).2 with
      | nil => rw [hp] at this; simp at this
      | cons a l => rfl
    show (e.connection.send (EncryptedConnection.send_packet c e payload).2).send_queue = _
    unfold Connection.send
    simp [hne]
  · intro hp
    rw [hframe, hp]
    rfl

/-- Witness for send_packet_frame_size at the concrete primitives and a
5-byte payload. -/
theorem send_packet_frame_size_witness :
    (EncryptedConnection.send_packet testCrypto
        (EncryptedConnection.new testCrypto testHandshakeA) [1, 2, 3, 4, 5]).2.length =
      32 + ([1, 2, 3, 4, 5] : Bytes).length +
        (16 - ([1, 2, 3, 4, 5] : Bytes).length % 16) % 16 + 16 ∧
    (EncryptedConnection.send_packet testCrypto
        (EncryptedConnection.new testCrypto testHandshakeA) [1, 2, 3, 4, 5]).1.connection.send_queue =
      (EncryptedConnection.new testCrypto testHandshakeA).connection.send_queue ++
        [⟨0, (EncryptedConnection.send_packet testCrypto
          (EncryptedConnection.new testCrypto testHandshakeA) [1, 2, 3, 4, 5]).2⟩] ∧
    (([1, 2, 3, 4, 5] : Bytes) = [] →
      (EncryptedConnection.send_packet testCrypto
        (EncryptedConnection.new testCrypto testHandshakeA) [1, 2, 3, 4, 5]).2.length = 48) :=
  send_packet_frame_size testCrypto testCrypto_wf
    (EncryptedConnection.new testCrypto testHandshakeA) [1, 2, 3, 4, 5] (by decide)

/-- C2 counterexample: at the concrete primitives and handshake, the AES
key produced by EncryptedConnection.new is not the upper half of
key_material after a single replacement, because the source hashes the
buffer twice before reading off the AES key. -/
theorem key_derivation_one_hash_counterexample :
    (EncryptedConnection.new testCrypto testHandshakeA).encoderKey ≠
      (specReplaceUpper testCrypto (specKeyMaterial testCrypto testHandshakeA)).drop 32 := by
  decide

/-- C2 amended: after placing the shared secret in key_material bytes 0..32
and Keccak256 of the nonce material in bytes 32..64, exactly two
replacements of the upper half by Keccak256 of the whole buffer produce the
AES key used to initialize both CTR cipher states, and one further
replacement produces the MAC key used for the ECB MAC encoder and for the
MAC seeding XOR against the nonces. -/
theorem key_derivation_schedule (c : Crypto) (h : Handshake) :
    (EncryptedConnection.new c h).encoderKey =
      (specReplaceUpper c (specReplaceUpper c (specKeyMaterial c h))).drop 32 ∧
    (EncryptedConnection.new c h).decoderKey =
      (specReplaceUpper c (specReplaceUpper c (specKeyMaterial c h))).drop 32 ∧
    (EncryptedConnection.new c h).macKey =
      (specReplaceUpper c
        (specReplaceUpper c (specReplaceUpper c (specKeyMaterial c h)))).drop 32 ∧
    (EncryptedConnection.new c h).egress_mac =
      zipXor ((specReplaceUpper c
          (specReplaceUpper c (specReplaceUpper c (specKeyMaterial c h)))).drop 32)
        h.remoteNonce ++ (if h.originated then h.authCipher else h.ackCipher) ∧
    (EncryptedConnection.new c h).ingress_mac =
      zipXor ((specReplaceUpper c
          (specReplaceUpper c (specReplaceUpper c (specKeyMaterial c h)))).drop 32)
        h.nonce ++ (if h.originated then h.ackCipher else h.authCipher) := by
  exact ⟨rfl, rfl, rfl, rfl, rfl⟩

/-- The rlp decoder error is wrapped into a non-Auth UtilError variant by
read_header, so a decoder failure is never reported as Auth. -/
theorem rlpValAt0U16_not_auth (bytes : Bytes) :
    rlpValAt0U16 bytes ≠ Except.error UtilError.Auth := by
  unfold rlpValAt0U16
  repeat' split
  all_goals simp

/-- C5: read_header fails with Auth exactly when the input is not 32 bytes
or the ingress MAC tag after mixing the first 16 ciphertext bytes differs
from bytes 16..32; on success it records the 24-bit big-endian length
decoded from the decrypted header and the RLP-decoded protocol id, sets the
pipe to expect length plus padding plus 16 bytes, and switches the read
state to Payload. -/
theorem read_header_auth_spec (c : Crypto) (e : EncryptedConnection) (header : Bytes) :
    (EncryptedConnection.read_header c e header = Except.error UtilError.Auth ↔
      (header.length ≠ 32 ∨
        header.drop 16 ≠
          (c.keccakFinal (EncryptedConnection.update_mac c e.macKey e.ingress_mac
            (header.take 16))).take 16)) ∧
    (∀ e1, EncryptedConnection.read_header c e header = Except.ok e1 →
      e1.payload_len =
        ((ctrCrypt c e.decoderKey e.decoderPos (header.take 16)).getD 0 0 * 256 +
            (ctrCrypt c e.decoderKey e.decoderPos (header.take 16)).getD 1 0) * 256 +
          (ctrCrypt c e.decoderKey e.decoderPos (header.take 16)).getD 2 0 ∧
      rlpValAt0U16
          (((ctrCrypt c e.decoderKey e.decoderPos (header.take 16)).drop 3).take 3) =
        Except.ok e1.protocol_id ∧
      e1.connection.rec_size = e1.payload_len + (16 - e1.payload_len % 16) % 16 + 16 ∧
      e1.connection.rec_buf = [] ∧
      e1.read_state = EncryptedConnectionState.Payload) := by
  simp only [EncryptedConnection.read_header]
  by_cases h1 : header.length ≠ ENCRYPTED_HEADER_LEN
  · rw [if_pos h1]
    refine ⟨⟨fun _ => Or.inl h1, fun _ => rfl⟩, ?_⟩
    intro e1 hok
    exact absurd hok (by simp)
  · rw [if_neg h1]
    by_cases h2 : header.drop 16 ≠
        (c.keccakFinal (EncryptedConnection.update_mac c e.macKey e.ingress_mac
          (header.take 16))).take 16
    · rw [if_pos h2]
      refine ⟨⟨fun _ => Or.inr h2, fun _ => rfl⟩, ?_⟩
      intro e1 hok
      exact absurd hok (by simp)
    · rw [if_neg h2]
      have hlen32 : header.length = 32 := by
        have := h1
        unfold ENCRYPTED_HEADER_LEN at this
        omega
      refine ⟨⟨?_, ?_⟩, ?_⟩
      · intro hx
        split at hx
        · rename_i err heq
          have herr := Except.error.inj hx
          rw [herr] at heq
          exact absurd heq
            (rlpValAt0U16_not_auth
              (((ctrCrypt c e.decoderKey e.decoderPos (header.take 16)).drop 3).take 3))
        · simp at hx
      · intro hor
        rcases hor with ha | hb
        · exact absurd hlen32 ha
        · exact absurd (not_not.mp h2) hb
      · intro e1 hok
        split at hok
        · simp at hok
        · rename_i pid heq
          have he1 := Except.ok.inj hok
          rw [← he1]
          exact ⟨rfl, heq, rfl, rfl, rfl⟩

/-- read_payload never touches the byte pipe or the read state: both are
inherited unchanged from the state it is called on. -/
theorem read_payload_preserves (c : Crypto) (e : EncryptedConnection)
    (payload : Bytes) (e1 : EncryptedConnection) (pkt : Packet)
    (h : EncryptedConnection.read_payload c e payload = Except.ok (e1, pkt)) :
    e1.connection = e.connection ∧ e1.read_state = e.read_state := by
  simp only [EncryptedConnection.read_payload] at h
  split at h
  · simp at h
  · split at h
    · simp at h
    · have := Except.ok.inj h
      have he1 : _ = e1 := congrArg Prod.fst this
      rw [← he1]
      exact ⟨rfl, rfl⟩

/-- C6: read_payload fails with Auth exactly when the input length differs
from payload_len + padding + 16 or the ingress MAC tag after absorbing the
body and mixing the empty seed differs from the trailing 16 bytes; on
success the packet data is the CTR decryption of the first payload_len body
bytes and the ingress keystream advances past the discarded padding as
well; a successful readable call in Payload state leaves the channel back
in Header state with the pipe expecting the 32-byte header. -/
theorem read_payload_auth_spec (c : Crypto) (e : EncryptedConnection) (payload : Bytes) :
    (EncryptedConnection.read_payload c e payload = Except.error UtilError.Auth ↔
      (payload.length ≠ e.payload_len + (16 - e.payload_len % 16) % 16 + 16 ∨
        payload.drop (payload.length - 16) ≠
          (c.keccakFinal (EncryptedConnection.update_mac c e.macKey
            (e.ingress_mac ++ payload.take (payload.length - 16)) [])).take 16)) ∧
    (∀ e1 pkt, EncryptedConnection.read_payload c e payload = Except.ok (e1, pkt) →
      pkt.data = ctrCrypt c e.decoderKey e.decoderPos (payload.take e.payload_len) ∧
      pkt.protocol = e.protocol_id ∧
      e1.decoderPos = e.decoderPos + e.payload_len + (16 - e.payload_len % 16) % 16) ∧
    (∀ input e2 pkt, e.read_state = EncryptedConnectionState.Payload →
      EncryptedConnection.readable c e input = Except.ok (e2, some pkt) →
      e2.read_state = EncryptedConnectionState.Header ∧
      e2.connection.rec_size = 32 ∧ e2.connection.rec_buf = []) := by
  refine ⟨?_, ?_, ?_⟩
  · simp only [EncryptedConnection.read_payload]
    by_cases hl : payload.length ≠ e.payload_len + (16 - e.payload_len % 16) % 16 + 16
    · rw [if_pos hl]
      exact ⟨fun _ => Or.inl hl, fun _ => rfl⟩
    · rw [if_neg hl]
      by_cases hm : payload.drop (payload.length - 16) ≠
          (c.keccakFinal (EncryptedConnection.update_mac c e.macKey
            (e.ingress_mac ++ payload.take (payload.length - 16)) [])).take 16
      · rw [if_pos hm]
        exact ⟨fun _ => Or.inr hm, fun _ => rfl⟩
      · rw [if_neg hm]
        constructor
        · intro hx
          simp at hx
        · intro hor
          rcases hor with ha | hb
          · exact absurd (not_not.mp hl) ha
          · exact absurd (not_not.mp hm) hb
  · intro e1 pkt hok
    simp only [EncryptedConnection.read_payload] at hok
    split at hok
    · simp at hok
    · split at hok
      · simp at hok
      · have hinj := Except.ok.inj hok
        have he1 : _ = e1 := congrArg Prod.fst hinj
        have hpkt : _ = pkt := congrArg Prod.snd hinj
        rw [← he1, ← hpkt]
        exact ⟨rfl, rfl, rfl⟩
  · intro input e2 pkt hrs hok
    simp only [EncryptedConnection.readable] at hok
    split at hok
    · rename_i hdr
      rw [hrs] at hdr
      exact absurd hdr (by simp)
    · split at hok
      · have hinj := Except.ok.inj hok
        have := congrArg Prod.snd hinj
        simp at this
      · split at hok
        · simp at hok
        · rename_i e3 packet heq
          have hinj := Except.ok.inj hok
          have he2 : e3 = e2 := congrArg Prod.fst hinj
          have hpres := read_payload_preserves c _ _ e3 packet heq
          rw [← he2]
          refine ⟨?_, ?_, ?_⟩
          · rw [hpres.2]
          · rw [hpres.1]
            rfl
          · rw [hpres.1]
            rfl

/-- The frame built by send_packet, decomposed into its five pieces. -/
theorem send_packet_parts (c : Crypto) (e : EncryptedConnection) (p : Bytes) :
    (EncryptedConnection.send_packet c e p).2 =
      frameCtHeader c e p ++ frameMac1 c e p ++ frameCtPayload c e p ++
        frameCtPad c e p ++ frameMac2 c e p := rfl

/-- The state left by send_packet, in terms of the frame pieces. -/
theorem send_packet_state (c : Crypto) (e : EncryptedConnection) (p : Bytes) :
    (EncryptedConnection.send_packet c e p).1 =
      { e with
        egress_mac := frameEgress3 c e p
        encoderPos := e.encoderPos + 16 + p.length + framePad p
        connection := e.connection.send (EncryptedConnection.send_packet c e p).2 } := rfl

/-- The 24-bit big-endian length field decodes back to the length for any
payload below 2^24. -/
theorem headerPlain_decode (L : Nat) (h : L < 2 ^ 24) :
    ((headerPlain L).getD 0 0 * 256 + (headerPlain L).getD 1 0) * 256 +
      (headerPlain L).getD 2 0 = L := by
  show (L / 65536 % 256 * 256 + L / 256 % 256) * 256 + L % 256 = L
  omega

/-- Bytes 3..6 of any header plaintext are the fixed RLP bytes. -/
theorem headerPlain_rlp (L : Nat) :
    ((headerPlain L).drop 3).take 3 = [0xc2, 0x80, 0x80] := rfl

/-- The first 32 bytes of a frame are the header ciphertext and its tag. -/
theorem frame_take_32 (c : Crypto) (hwf : CryptoWF c) (e : EncryptedConnection)
    (p : Bytes) :
    (EncryptedConnection.send_packet c e p).2.take 32 =
      frameCtHeader c e p ++ frameMac1 c e p := by
  have hF : (EncryptedConnection.send_packet c e p).2 =
      (frameCtHeader c e p ++ frameMac1 c e p) ++
        (frameCtPayload c e p ++ (frameCtPad c e p ++ frameMac2 c e p)) := by
    rw [send_packet_parts]
    simp [List.append_assoc]
  rw [hF]
  refine List.take_left' ?_
  simp [frameCtHeader, frameMac1, hwf.keccak_len]

/-- The rest of a frame is the body ciphertext and the payload tag. -/
theorem frame_drop_32 (c : Crypto) (hwf : CryptoWF c) (e : EncryptedConnection)
    (p : Bytes) :
    (EncryptedConnection.send_packet c e p).2.drop 32 =
      frameCtPayload c e p ++ (frameCtPad c e p ++ frameMac2 c e p) := by
  have hF : (EncryptedConnection.send_packet c e p).2 =
      (frameCtHeader c e p ++ frameMac1 c e p) ++
        (frameCtPayload c e p ++ (frameCtPad c e p ++ frameMac2 c e p)) := by
    rw [send_packet_parts]
    simp [List.append_assoc]
  rw [hF]
  refine List.drop_left' ?_
  simp [frameCtHeader, frameMac1, hwf.keccak_len]

/-- On a matched receiver, read_header accepts the first 32 bytes of a sent
frame, decodes the payload length and protocol 0, and primes the pipe for
the body. -/
theorem read_header_of_frame (c : Crypto) (hwf : CryptoWF c)
    (eA eB : EncryptedConnection) (p : Bytes)
    (hm : matched eA eB) (hp : p.length < 2 ^ 24) :
    EncryptedConnection.read_header c eB
        ((EncryptedConnection.send_packet c eA p).2.take 32) =
      Except.ok { eB with
        ingress_mac := frameEgress1 c eA p
        decoderPos := eB.decoderPos + 16
        payload_len := p.length
        protocol_id := 0
        read_state := EncryptedConnectionState.Payload
        connection := eB.connection.expect (p.length + framePad p + 16) } := by
  obtain ⟨hmk, hkey, hpos, hmac⟩ := hm
  rw [frame_take_32 c hwf eA p]
  have hlen : (frameCtHeader c eA p ++ frameMac1 c eA p).length = 32 := by
    simp [frameCtHeader, frameMac1, hwf.keccak_len]
  have ht16 : (frameCtHeader c eA p ++ frameMac1 c eA p).take 16 = frameCtHeader c eA p :=
    List.take_left' (by simp [frameCtHeader])
  have hd16 : (frameCtHeader c eA p ++ frameMac1 c eA p).drop 16 = frameMac1 c eA p :=
    List.drop_left' (by simp [frameCtHeader])
  have hingress : EncryptedConnection.update_mac c eB.macKey eB.ingress_mac
      (frameCtHeader c eA p) = frameEgress1 c eA p := by
    rw [← hmk, ← hmac]
    rfl
  have hdec : ctrCrypt c eB.decoderKey eB.decoderPos (frameCtHeader c eA p) =
      headerPlain p.length := by
    rw [← hkey, ← hpos]
    exact ctrCrypt_ctrCrypt c eA.encoderKey eA.encoderPos (headerPlain p.length)
  have hrlp : rlpValAt0U16 [0xc2, 0x80, 0x80] = Except.ok 0 := rfl
  have hdecode := headerPlain_decode p.length hp
  simp only [EncryptedConnection.read_header, ht16, hd16, hingress, hdec, hlen,
    headerPlain_rlp, hrlp, hdecode, ENCRYPTED_HEADER_LEN, framePad]
  rw [if_neg (by omega)]
  rw [if_neg (by simp [frameMac1])]

/-- On a matched receiver that has consumed the header, read_payload
accepts the rest of the frame and returns the original payload under
protocol 0, advancing its keystream past the padding. -/
theorem read_payload_of_frame (c : Crypto) (hwf : CryptoWF c)
    (eA eB : EncryptedConnection) (p : Bytes)
    (hm : matched eA eB) (hp : p.length < 2 ^ 24) :
    EncryptedConnection.read_payload c
        { eB with
          ingress_mac := frameEgress1 c eA p
          decoderPos := eB.decoderPos + 16
          payload_len := p.length
          protocol_id := 0
          read_state := EncryptedConnectionState.Payload
          connection := eB.connection.expect (p.length + framePad p + 16) }
        ((EncryptedConnection.send_packet c eA p).2.drop 32) =
      Except.ok
        ({ eB with
            ingress_mac := frameEgress3 c eA p
            decoderPos := eB.decoderPos + 16 + p.length + framePad p
            payload_len := p.length
            protocol_id := 0
            read_state := EncryptedConnectionState.Payload
            connection := eB.connection.expect (p.length + framePad p + 16) },
          { protocol := 0, data := p }) := by
  obtain ⟨hmk, hkey, hpos, hmac⟩ := hm
  rw [frame_drop_32 c hwf eA p]
  have hlp : (frameCtPayload c eA p).length = p.length := by simp [frameCtPayload]
  have hlpad : (frameCtPad c eA p).length = framePad p := by simp [frameCtPad]
  have hlm2 : (frameMac2 c eA p).length = 16 := by
    simp [frameMac2, hwf.keccak_len]
  have hlenB : (frameCtPayload c eA p ++ (frameCtPad c eA p ++ frameMac2 c eA p)).length
      = p.length + framePad p + 16 := by
    simp only [List.length_append, hlp, hlpad, hlm2]
    omega
  have hframePad : (16 - p.length % 16) % 16 = framePad p := rfl
  have hbt : (frameCtPayload c eA p ++ (frameCtPad c eA p ++ frameMac2 c eA p)).take
      (p.length + framePad p) = frameCtPayload c eA p ++ frameCtPad c eA p := by
    rw [← List.append_assoc]
    exact List.take_left' (by simp [hlp, hlpad])
  have hbd : (frameCtPayload c eA p ++ (frameCtPad c eA p ++ frameMac2 c eA p)).drop
      (p.length + framePad p) = frameMac2 c eA p := by
    rw [← List.append_assoc]
    exact List.drop_left' (by simp [hlp, hlpad])
  have hbtL : (frameCtPayload c eA p ++ (frameCtPad c eA p ++ frameMac2 c eA p)).take
      p.length = frameCtPayload c eA p :=
    List.take_left' hlp
  have hing2 : EncryptedConnection.update_mac c eB.macKey
      (frameEgress1 c eA p ++ (frameCtPayload c eA p ++ frameCtPad c eA p)) [] =
      frameEgress3 c eA p := by
    rw [← hmk]
    rfl
  have hpk : ctrCrypt c eB.decoderKey (eB.decoderPos + 16) (frameCtPayload c eA p) = p := by
    rw [← hkey, ← hpos]
    exact ctrCrypt_ctrCrypt c eA.encoderKey (eA.encoderPos + 16) p
  simp only [EncryptedConnection.read_payload, hframePad, hlenB, Nat.add_sub_cancel,
    hbt, hbd, hbtL, hing2, hpk]
  rw [if_neg (by omega)]
  rw [if_neg (by simp [frameMac2])]

/-- One round trip: on a matched pair, feeding the frame produced by the
sender's send_packet through the receiver's read_header and read_payload
yields the original payload under protocol 0 and leaves the pair matched. -/
theorem roundtrip_step (c : Crypto) (hwf : CryptoWF c)
    (eA eB : EncryptedConnection) (p : Bytes)
    (hm : matched eA eB) (hp : p.length < 2 ^ 24) :
    recvFrame c eB (EncryptedConnection.send_packet c eA p).2 =
      Except.ok
        ({ eB with
            ingress_mac := frameEgress3 c eA p
            decoderPos := eB.decoderPos + 16 + p.length + framePad p
            payload_len := p.length
            protocol_id := 0
            read_state := EncryptedConnectionState.Payload
            connection := eB.connection.expect (p.length + framePad p + 16) },
          { protocol := 0, data := p }) ∧
    matched (EncryptedConnection.send_packet c eA p).1
      { eB with
        ingress_mac := frameEgress3 c eA p
        decoderPos := eB.decoderPos + 16 + p.length + framePad p
        payload_len := p.length
        protocol_id := 0
        read_state := EncryptedConnectionState.Payload
        connection := eB.connection.expect (p.length + framePad p + 16) } := by
  constructor
  · unfold recvFrame
    rw [read_header_of_frame c hwf eA eB p hm hp]
    exact read_payload_of_frame c hwf eA eB p hm hp
  · obtain ⟨hmk, hkey, hpos, hmac⟩ := hm
    refine ⟨hmk, hkey, ?_, rfl⟩
    show eA.encoderPos + 16 + p.length + framePad p = eB.decoderPos + 16 + p.length + framePad p
    rw [hpos]

/-- Matched senders and receivers stay matched over any list of payloads:
the receiver decodes exactly the sent payloads, in order, all under
protocol 0. -/
theorem recvAll_sendAll (c : Crypto) (hwf : CryptoWF c) (ps : List Bytes) :
    ∀ eA eB, matched eA eB → (∀ p ∈ ps, p.length < 2 ^ 24) →
      ∃ eB2, recvAll c eB (sendAll c eA ps).2 =
          Except.ok (eB2, ps.map (fun p => { protocol := 0, data := p })) ∧
        matched (sendAll c eA ps).1 eB2 := by
  induction ps with
  | nil =>
    intro eA eB hm _
    exact ⟨eB, rfl, hm⟩
  | cons p ps ih =>
    intro eA eB hm hlen
    have hp : p.length < 2 ^ 24 := hlen p (by simp)
    obtain ⟨hstep, hm1⟩ := roundtrip_step c hwf eA eB p hm hp
    obtain ⟨eB3, hrec, hm3⟩ :=
      ih (EncryptedConnection.send_packet c eA p).1 _ hm1
        (fun q hq => hlen q (by simp [hq]))
    refine ⟨eB3, ?_, hm3⟩
    show recvAll c eB ((EncryptedConnection.send_packet c eA p).2 ::
      (sendAll c (EncryptedConnection.send_packet c eA p).1 ps).2) = _
    unfold recvAll
    simp only [hstep, hrec, List.map_cons]

/-- Channels built from the two ends of one handshake are matched. -/
theorem new_matched (c : Crypto) (hA hB : Handshake)
    (hm : matchingHandshakes c hA hB) :
    matched (EncryptedConnection.new c hA) (EncryptedConnection.new c hB) := by
  obtain ⟨hoA, hoB, hsh, hn, hrn, hauth, hack⟩ := hm
  have hnm : nonceMaterial hA = nonceMaterial hB := by
    simp [nonceMaterial, hoA, hoB, hn, hrn]
  unfold matched EncryptedConnection.new
  simp [hoA, hoB, hsh, hnm, hn, hrn, hauth, hack]

/-- C1: for every list of payloads each below 2^24 bytes, with channels A
(originator) and B (responder) constructed from matching handshake records,
feeding the frames produced by A's send_packet through B's read_header and
read_payload yields exactly the sent payloads, in FIFO order, each as a
Packet with protocol 0. -/
theorem framing_roundtrip_fifo (c : Crypto) (hA hB : Handshake) (ps : List Bytes)
    (hwf : CryptoWF c) (hm : matchingHandshakes c hA hB)
    (hlen : ∀ p ∈ ps, p.length < 2 ^ 24) :
    ∃ eB2, recvAll c (EncryptedConnection.new c hB)
        (sendAll c (EncryptedConnection.new c hA) ps).2 =
      Except.ok (eB2, ps.map (fun p => { protocol := 0, data := p })) := by
  obtain ⟨eB2, hrec, _⟩ :=
    recvAll_sendAll c hwf ps (EncryptedConnection.new c hA)
      (EncryptedConnection.new c hB) (new_matched c hA hB hm) hlen
  exact ⟨eB2, hrec⟩

/-- Witness for framing_roundtrip_fifo: the concrete primitives, the
concrete matching handshakes, and two payloads of lengths 2 and 0. -/
theorem framing_roundtrip_fifo_witness :
    ∃ eB2, recvAll testCrypto (EncryptedConnection.new testCrypto testHandshakeB)
        (sendAll testCrypto (EncryptedConnection.new testCrypto testHandshakeA)
          [[5, 6], []]).2 =
      Except.ok (eB2, ([[5, 6], []] : List Bytes).map
        (fun p => { protocol := 0, data := p })) :=
  framing_roundtrip_fifo testCrypto testHandshakeA testHandshakeB [[5, 6], []]
    testCrypto_wf ⟨rfl, rfl, rfl, rfl, rfl, rfl, rfl⟩ (by decide)
